import Mathlib

/-!
# Verification of the embedding cache (`emb_cache.py`)

Shallow embedding of the cache core of the repository
`hybrid-graph-chat-assistant`: key derivation, the vector codec, the
persistent store with TTL expiry and capacity eviction, and the batch
resolver.

Modelling conventions:

* Python strings are modelled as `List Char` (`Str`).
* SHA-256 is a fixed injective digest; all claims about key
  equality/distinctness are stated "up to hash collisions", so the model
  works with the pre-hash byte string `model ++ "|" ++ normalized text`
  that the source feeds to `hashlib.sha256`.  Two keys are equal in the
  real code iff the pre-hash strings are equal (modulo SHA-256
  collisions).
* `float32` values are modelled by their 32-bit patterns (`Nat < 2^32`);
  the codec (`np.float32 tobytes / frombuffer`) is byte-exact on bit
  patterns, which captures "equal exactly when each component is
  float32-representable".
* Timestamps (`time.time()`, `created_at REAL`) are integers (Unix
  seconds): every claim about time is an order/equality fact, so the
  real-valued clock is order-embedded; the current time is passed
  explicitly where the source calls `time.time()`.
* The SQLite table is an association list of rows; `PRIMARY KEY`
  uniqueness is the hypothesis that the stored keys are `Nodup`.
* A Python exception escaping a function is an `Except`/`Option` error
  value.
-/

abbrev Str := List Char

/-- `DB` constants from the top of `emb_cache.py`. -/
def MAX_ENTRIES : Nat := 200000

/-- `TTL_SECONDS = 60 * 60 * 24 * 30` (30 days). -/
def TTL_SECONDS : Int := 60 * 60 * 24 * 30

/-- Whitespace test used by `str.split()` (modelled by `Char.isWhitespace`). -/
def isWs (c : Char) : Bool := c.isWhitespace

/-- Accumulator version of Python `str.split()` (split on whitespace runs,
dropping empty fields).  `acc` is the current word, reversed. -/
def pySplitAux : Str → Str → List Str
  | [], acc => if acc = [] then [] else [acc.reverse]
  | c :: cs, acc =>
    if isWs c then
      (if acc = [] then pySplitAux cs [] else acc.reverse :: pySplitAux cs [])
    else pySplitAux cs (c :: acc)

/-- Python `text.split()`. -/
def pySplit (l : Str) : List Str := pySplitAux l []

/-- `" ".join(text.split())`: collapse whitespace runs to single spaces and
trim the ends. -/
def normalizeWs (l : Str) : Str := List.intercalate [' '] (pySplit l)

/-- `_make_key`: the byte string `f"{model}|{cleaned}"` that the source
hashes (SHA-256 modelled as injective, see the header comment). -/
def _make_key (text model : Str) : Str := model ++ '|' :: normalizeWs text

/-- Little-endian bytes of one float32 bit pattern (`np.float32.tobytes`). -/
def word32ToBytes (w : Nat) : List Nat :=
  [w % 256, w / 256 % 256, w / 256 ^ 2 % 256, w / 256 ^ 3 % 256]

/-- `_serialize_emb`: `np.array(emb, dtype=np.float32).tobytes()`; the input
is the vector at float32 bit-pattern level. -/
def _serialize_emb (emb : List Nat) : List Nat := (emb.map word32ToBytes).flatten

/-- Reassemble one little-endian 4-byte group. -/
def bytesToWord32 (b0 b1 b2 b3 : Nat) : Nat :=
  b0 + 256 * b1 + 256 ^ 2 * b2 + 256 ^ 3 * b3

/-- `_deserialize_emb`: `np.frombuffer(b, dtype=np.float32)`; `none` models
the `ValueError` numpy raises when the byte length is not a multiple of 4. -/
def _deserialize_emb : List Nat → Option (List Nat)
  | [] => some []
  | b0 :: b1 :: b2 :: b3 :: rest =>
    (_deserialize_emb rest).map (bytesToWord32 b0 b1 b2 b3 :: ·)
  | _ => none

/-- One row of the `embeddings` table. -/
structure Entry where
  key : Str
  model : Str
  text : Str
  emb : List Nat
  created_at : Int
deriving DecidableEq

/-- The `embeddings` table. -/
abbrev Store := List Entry

/-- `PRIMARY KEY` well-formedness: stored keys are pairwise distinct. -/
def Store.WFKeys (s : Store) : Prop := (s.map Entry.key).Nodup

/-- All stored blobs decode (byte length a multiple of 4). -/
def Store.WFBlobs (s : Store) : Prop := ∀ e ∈ s, (_deserialize_emb e.emb).isSome

/-- The TTL test `TTL_SECONDS and (now - created_at) > TTL_SECONDS`
shared by `get_embedding_from_cache` and `batch_get_embeddings`. -/
def isExpired (now : Int) (e : Entry) : Bool :=
  decide (TTL_SECONDS ≠ 0 ∧ now - e.created_at > TTL_SECONDS)

/-- `SELECT ... WHERE key = ?` (unique row under `Store.WFKeys`). -/
def rowOf (s : Store) (k : Str) : Option Entry :=
  s.find? (fun e => decide (e.key = k))

/-- `DELETE FROM embeddings WHERE key = ?`. -/
def deleteKey (s : Store) (k : Str) : Store :=
  s.filter (fun e => decide (¬ e.key = k))

/-- Outcome of a single lookup: an uncaught Python exception escaping to
the caller, `None`, or a vector. -/
inductive GetResult where
  | raised : GetResult
  | absent : GetResult
  | found : List Nat → GetResult
deriving DecidableEq

/-- `get_embedding_from_cache`, paired with the store after the call
(TTL expiry deletes lazily). -/
def get_embedding_from_cache (text model : Str) (now : Int) (s : Store) :
    GetResult × Store :=
  let key := _make_key text model
  match rowOf s key with
  | none => (.absent, s)
  | some e =>
    if isExpired now e then (.absent, deleteKey s key)
    else
      match _deserialize_emb e.emb with
      | none => (.raised, s)
      | some v => (.found v, s)

/-- The `INSERT OR REPLACE` step of `put_embedding_in_cache` (text truncated
to 2000 characters, `created_at = time.time()`). -/
def insertStep (text model : Str) (emb : List Nat) (now : Int) (s : Store) : Store :=
  deleteKey s (_make_key text model) ++
    [⟨_make_key text model, model, text.take 2000, _serialize_emb emb, now⟩]

/-- Oldest-first order used by `ORDER BY created_at ASC` (ties resolved by
the deterministic stable sort, matching "ties broken arbitrarily but
deterministically"). -/
def byAge (a b : Entry) : Prop := a.created_at ≤ b.created_at

instance : DecidableRel byAge := fun a b => by
  unfold byAge; infer_instance

instance : IsTotal Entry byAge := ⟨fun a b => le_total a.created_at b.created_at⟩

instance : IsTrans Entry byAge := ⟨fun _ _ _ h h' => le_trans h h'⟩

/-- The keys selected by
`SELECT key FROM embeddings ORDER BY created_at ASC LIMIT n`. -/
def oldestKeys (s : Store) (n : Nat) : List Str :=
  ((s.insertionSort byAge).take n).map Entry.key

/-- `put_embedding_in_cache`: insert-or-replace, then the capacity eviction
pass (`count > MAX_ENTRIES` → delete the `count - int(MAX_ENTRIES * 0.9)`
oldest rows; `int(200000 * 0.9) = 180000 = MAX_ENTRIES * 9 / 10`). -/
def put_embedding_in_cache (text model : Str) (emb : List Nat) (now : Int) (s : Store) : Store :=
  let s1 := insertStep text model emb now s
  let count := s1.length
  if count > MAX_ENTRIES then
    let cutoff := MAX_ENTRIES * 9 / 10
    let doomed := oldestKeys s1 (count - cutoff)
    s1.filter (fun e => decide (¬ e.key ∈ doomed))
  else s1

/-- ASCII case folding at code-point level (uppercase letters mapped to
lowercase); used to express "texts differing only in letter case". -/
def foldNat (n : Nat) : Nat := if 65 ≤ n ∧ n ≤ 90 then n + 32 else n

/-- Case-folded code points of a text; two texts differ only in letter case
iff they are distinct but have equal `caseFold`. -/
def caseFold (l : Str) : List Nat := l.map (fun c => foldNat c.toNat)

theorem char_eq_iff_toNat {c d : Char} : c = d ↔ c.toNat = d.toNat :=
  ⟨fun h => h ▸ rfl, fun h => Char.ext (UInt32.toNat.inj h)⟩

theorem isWs_iff_code {c : Char} :
    isWs c = true ↔ (c.toNat = 32 ∨ c.toNat = 9 ∨ c.toNat = 13 ∨ c.toNat = 10) := by
  have h1 : (' ' : Char).toNat = 32 := rfl
  have h2 : ('\t' : Char).toNat = 9 := rfl
  have h3 : ('\r' : Char).toNat = 13 := rfl
  have h4 : ('\n' : Char).toNat = 10 := rfl
  simp only [isWs, Char.isWhitespace, Bool.or_eq_true, decide_eq_true_eq,
    char_eq_iff_toNat, h1, h2, h3, h4]
  tauto

theorem foldNat_ws_eq {n m : Nat} (hn : n = 32 ∨ n = 9 ∨ n = 13 ∨ n = 10)
    (h : foldNat n = foldNat m) : n = m := by
  unfold foldNat at h
  rcases hn with hn | hn | hn | hn <;> (split at h <;> split at h <;> omega)

theorem ws_char_eq_of_fold {c d : Char} (h : foldNat c.toNat = foldNat d.toNat)
    (hc : isWs c = true) : c = d :=
  char_eq_iff_toNat.mpr (foldNat_ws_eq (isWs_iff_code.mp hc) h)

theorem isWs_eq_of_fold {c d : Char} (h : foldNat c.toNat = foldNat d.toNat) :
    isWs c = isWs d := by
  by_cases hc : isWs c = true
  · rw [ws_char_eq_of_fold h hc]
  · by_cases hd : isWs d = true
    · rw [ws_char_eq_of_fold h.symm hd]
    · simp only [Bool.not_eq_true] at hc hd
      rw [hc, hd]

theorem intercalate_single (s x : Str) : List.intercalate s [x] = x := by
  simp [List.intercalate]

theorem intercalate_cons_cons (s x y : Str) (ys : List Str) :
    List.intercalate s (x :: y :: ys) = x ++ s ++ List.intercalate s (y :: ys) := by
  simp [List.intercalate, List.intersperse]

/-- Case-variant inputs on which `" ".join(split())` agrees are equal:
normalization touches only whitespace, and case folding fixes whitespace,
so no case distinction is erased. -/
theorem normalize_eq_of_fold : ∀ (l1 l2 acc1 acc2 : Str),
    caseFold l1 = caseFold l2 →
    caseFold acc1 = caseFold acc2 →
    List.intercalate [' '] (pySplitAux l1 acc1) =
      List.intercalate [' '] (pySplitAux l2 acc2) →
    l1 = l2 ∧ acc1 = acc2 := by
  intro l1
  induction l1 with
  | nil =>
    intro l2 acc1 acc2 hl hacc hnorm
    have hl2 : l2 = [] := by
      simpa [caseFold, List.map_eq_nil_iff] using hl.symm
    subst hl2
    refine ⟨rfl, ?_⟩
    by_cases ha1 : acc1 = []
    · subst ha1
      have ha2 : acc2 = [] := by
        simpa [caseFold, List.map_eq_nil_iff] using hacc.symm
      exact ha2.symm
    · have ha2 : acc2 ≠ [] := by
        intro h2
        subst h2
        exact ha1 (by simpa [caseFold, List.map_eq_nil_iff] using hacc)
      simp only [pySplitAux, if_neg ha1, if_neg ha2,
        intercalate_single] at hnorm
      exact List.reverse_injective hnorm
  | cons c1 t1 ih =>
    intro l2 acc1 acc2 hl hacc hnorm
    match l2 with
    | [] => exact absurd hl (by simp [caseFold])
    | c2 :: t2 =>
      simp only [caseFold, List.map_cons, List.cons.injEq] at hl
      obtain ⟨hc, ht⟩ := hl
      by_cases hws : isWs c1 = true
      · -- whitespace head: the two heads are in fact equal
        have hc12 : c1 = c2 := ws_char_eq_of_fold hc hws
        subst hc12
        simp only [pySplitAux, hws, if_true] at hnorm
        by_cases ha1 : acc1 = []
        · have ha2 : acc2 = [] := by
            subst ha1
            simpa [caseFold, List.map_eq_nil_iff] using hacc.symm
          subst ha1; subst ha2
          rw [if_pos rfl, if_pos rfl] at hnorm
          obtain ⟨ht12, -⟩ := ih t2 [] [] ht rfl hnorm
          exact ⟨by rw [ht12], rfl⟩
        · have ha2 : acc2 ≠ [] := by
            intro h2
            subst h2
            exact ha1 (by simpa [caseFold, List.map_eq_nil_iff] using hacc)
          rw [if_neg ha1, if_neg ha2] at hnorm
          have hlen : acc1.reverse.length = acc2.reverse.length := by
            have := congrArg List.length hacc
            simpa [caseFold] using this
          -- split both intercalations after the first word
          have hsplit :
              acc1.reverse = acc2.reverse ∧
              List.intercalate [' '] (pySplitAux t1 []) =
                List.intercalate [' '] (pySplitAux t2 []) := by
            rcases hp1 : pySplitAux t1 [] with _ | ⟨w1, ws1⟩ <;>
              rcases hp2 : pySplitAux t2 [] with _ | ⟨w2, ws2⟩
            · rw [hp1, hp2, intercalate_single, intercalate_single] at hnorm
              exact ⟨hnorm, rfl⟩
            · exfalso
              rw [hp1, hp2, intercalate_single, intercalate_cons_cons] at hnorm
              have hL := congrArg List.length hnorm
              simp only [List.length_append, List.length_cons,
                List.length_nil] at hL
              omega
            · exfalso
              rw [hp1, hp2, intercalate_cons_cons, intercalate_single] at hnorm
              have hL := congrArg List.length hnorm
              simp only [List.length_append, List.length_cons,
                List.length_nil] at hL
              omega
            · rw [hp1, hp2, intercalate_cons_cons, intercalate_cons_cons] at hnorm
              obtain ⟨hw', hI⟩ := List.append_inj hnorm (by simp [hlen])
              obtain ⟨hw, -⟩ := List.append_inj hw' hlen
              exact ⟨hw, hI⟩
          obtain ⟨ht12, -⟩ := ih t2 [] [] ht rfl hsplit.2
          exact ⟨by rw [ht12], List.reverse_injective hsplit.1⟩
      · -- non-whitespace head on both sides: extend the accumulators
        have hws2 : ¬ isWs c2 = true := by
          rw [← isWs_eq_of_fold hc]
          exact hws
        simp only [pySplitAux, if_neg hws, if_neg hws2] at hnorm
        obtain ⟨ht12, hacc12⟩ := ih t2 (c1 :: acc1) (c2 :: acc2) ht
          (by simpa [caseFold, hc] using hacc) hnorm
        simp only [List.cons.injEq] at hacc12
        exact ⟨by rw [ht12, hacc12.1], hacc12.2⟩

theorem normalize_ne_of_case {l1 l2 : Str} (hf : caseFold l1 = caseFold l2)
    (hne : l1 ≠ l2) : normalizeWs l1 ≠ normalizeWs l2 := fun h =>
  hne (normalize_eq_of_fold l1 l2 [] [] hf rfl h).1

theorem deserialize_serialize (v : List Nat) :
    _deserialize_emb (_serialize_emb v) = some (v.map (· % 2 ^ 32)) := by
  induction v with
  | nil => rfl
  | cons w rest ih =>
    have : _serialize_emb (w :: rest) =
        w % 256 :: (w / 256 % 256 :: (w / 256 ^ 2 % 256 ::
          (w / 256 ^ 3 % 256 :: _serialize_emb rest))) := rfl
    rw [this]
    show (_deserialize_emb (_serialize_emb rest)).map _ = _
    rw [ih]
    simp [bytesToWord32]
    omega

theorem deserialize_none_iff : ∀ b : List Nat,
    _deserialize_emb b = none ↔ b.length % 4 ≠ 0
  | [] => by simp [_deserialize_emb]
  | [_] => by simp [_deserialize_emb]
  | [_, _] => by simp [_deserialize_emb]
  | [_, _, _] => by simp [_deserialize_emb]
  | b0 :: b1 :: b2 :: b3 :: rest => by
    have ih := deserialize_none_iff rest
    have hm : (_deserialize_emb (b0 :: b1 :: b2 :: b3 :: rest) = none) ↔
        _deserialize_emb rest = none := by
      show ((_deserialize_emb rest).map _ = none) ↔ _
      cases _deserialize_emb rest <;> simp
    rw [hm, ih]
    simp only [List.length_cons]
    omega

/-- The `'|'` separator splits the pre-hash string unambiguously provided
it occurs in neither model string. -/
theorem sep_append_inj : ∀ (m1 m2 n1 n2 : Str), '|' ∉ m1 → '|' ∉ m2 →
    m1 ++ '|' :: n1 = m2 ++ '|' :: n2 → m1 = m2 ∧ n1 = n2 := by
  intro m1
  induction m1 with
  | nil =>
    intro m2 n1 n2 _ h2 h
    match m2 with
    | [] => simpa using h
    | c :: m2 =>
      simp only [List.nil_append, List.cons_append, List.cons.injEq] at h
      exact absurd (h.1 ▸ List.mem_cons_self c m2) h2
  | cons c1 m1 ih =>
    intro m2 n1 n2 h1 h2 h
    match m2 with
    | [] =>
      simp only [List.cons_append, List.nil_append, List.cons.injEq] at h
      exact absurd (h.1 ▸ List.mem_cons_self c1 m1) h1
    | c2 :: m2 =>
      simp only [List.cons_append, List.cons.injEq] at h
      obtain ⟨hm, hn⟩ := ih m2 n1 n2 (fun hx => h1 (List.mem_cons_of_mem _ hx))
        (fun hx => h2 (List.mem_cons_of_mem _ hx)) h.2
      exact ⟨by rw [h.1, hm], hn⟩

/-- C1: key derivation is deterministic modulo whitespace normalization and
nothing else: texts with equal whitespace-collapsed-and-trimmed forms get
the same key under every model, and distinct texts that differ only in
letter case (equal `caseFold`) get distinct keys — no lowercasing happens
before hashing. -/
theorem C1_key_normalization (model t1 t2 : Str) :
    (normalizeWs t1 = normalizeWs t2 → _make_key t1 model = _make_key t2 model) ∧
    (caseFold t1 = caseFold t2 → t1 ≠ t2 → _make_key t1 model ≠ _make_key t2 model) := by
  constructor
  · intro h
    unfold _make_key
    rw [h]
  · intro hf hne heq
    unfold _make_key at heq
    have hnorm : normalizeWs t1 = normalizeWs t2 :=
      List.cons_injective.eq_iff.mp (List.append_cancel_left heq)
    exact normalize_ne_of_case hf hne hnorm

theorem C1_witness :
    _make_key ('H' :: 'i' :: ' ' :: ' ' :: 'x' :: []) ['m'] =
      _make_key ('H' :: 'i' :: ' ' :: 'x' :: []) ['m'] ∧
    _make_key ['a'] ['m'] ≠ _make_key ['A'] ['m'] :=
  ⟨(C1_key_normalization ['m'] _ _).1 (by decide),
   (C1_key_normalization ['m'] _ _).2 (by decide) (by decide)⟩

/-- C6 counterexample: the `'|'` separator can occur inside the model (or
the normalized text), so two distinct `(model, normalized text)` pairs can
produce the same pre-hash byte string — here `("m|x", "y")` and
`("m", "x|y")` both hash `"m|x|y"`. -/
theorem C6_counterexample :
    _make_key ['y'] ['m', '|', 'x'] = _make_key ['x', '|', 'y'] ['m'] ∧
    ¬(['m', '|', 'x'] = ['m'] ∧ normalizeWs ['y'] = normalizeWs ['x', '|', 'y']) := by
  decide

/-- C6 (amended): provided neither model contains the separator `'|'`,
any two pairs whose `(model, normalized text)` components are not both
equal map to distinct pre-hash byte strings, hence distinct keys up to
SHA-256 collisions. -/
theorem C6_keys_injective (m1 m2 t1 t2 : Str) (h1 : '|' ∉ m1) (h2 : '|' ∉ m2)
    (hne : ¬(m1 = m2 ∧ normalizeWs t1 = normalizeWs t2)) :
    _make_key t1 m1 ≠ _make_key t2 m2 := by
  intro heq
  unfold _make_key at heq
  obtain ⟨hm, hn⟩ := sep_append_inj m1 m2 _ _ h1 h2 heq
  exact hne ⟨hm, hn⟩

theorem C6_witness :
    _make_key ['a'] ['m'] ≠ _make_key ['a'] ['n'] :=
  C6_keys_injective ['m'] ['n'] ['a'] ['a'] (by decide) (by decide) (by decide)

/-- C5: the vector codec round-trips: decoding an encoded vector yields a
vector of the same length, equal component-wise modulo the float32 downcast
(exactly equal when every component is float32-representable, i.e. already
a 32-bit pattern); the empty vector round-trips to the empty vector. -/
theorem C5_roundtrip :
    (∀ v : List Nat, ∃ w, _deserialize_emb (_serialize_emb v) = some w ∧
      w.length = v.length ∧ ((∀ x ∈ v, x < 2 ^ 32) → w = v)) ∧
    _deserialize_emb (_serialize_emb []) = some [] := by
  constructor
  · intro v
    refine ⟨v.map (· % 2 ^ 32), deserialize_serialize v, by simp, ?_⟩
    intro hv
    have hcong : ∀ x ∈ v, x % 2 ^ 32 = x := fun x hx => Nat.mod_eq_of_lt (hv x hx)
    calc v.map (· % 2 ^ 32) = v.map id := List.map_congr_left hcong
    _ = v := v.map_id
  · rfl

theorem C5_witness :
    _deserialize_emb (_serialize_emb [1, 4294967295]) = some [1, 4294967295] := by
  obtain ⟨w, hw, -, hv⟩ := C5_roundtrip.1 [1, 4294967295]
  rw [hw, hv (by decide)]

/-- C7 counterexample: a stored record whose blob length is 1 (not a
multiple of 4) and which is within TTL makes `get_embedding_from_cache`
raise (the numpy `ValueError` escapes, modelled `.error ()`): the record is
not treated as absent. -/
theorem C7_counterexample :
    (get_embedding_from_cache ['t'] ['m'] 0
      [⟨_make_key ['t'] ['m'], ['m'], ['t'], [0], 0⟩]).1 = .raised := by
  decide

/-- C7 (amended): `_deserialize_emb` errors exactly on byte strings whose
length is not a multiple of 4, and when a stored unexpired record's blob
has such a length, `get_embedding_from_cache` propagates the decode error
to the caller rather than treating the record as absent. -/
theorem C7_malformed_propagates :
    (∀ b : List Nat, _deserialize_emb b = none ↔ b.length % 4 ≠ 0) ∧
    (∀ (text model : Str) (now : Int) (s : Store) (e : Entry),
      rowOf s (_make_key text model) = some e →
      isExpired now e = false →
      e.emb.length % 4 ≠ 0 →
      (get_embedding_from_cache text model now s).1 = .raised) := by
  refine ⟨deserialize_none_iff, ?_⟩
  intro text model now s e hrow hexp hlen
  have hd : _deserialize_emb e.emb = none := (deserialize_none_iff e.emb).mpr hlen
  simp only [get_embedding_from_cache, hrow, hexp, hd, Bool.false_eq_true,
    if_false]

theorem C7_witness :
    (get_embedding_from_cache ['u'] ['m'] 0
      [⟨_make_key ['u'] ['m'], ['m'], ['u'], [0, 0, 0, 0, 0], 0⟩]).1 = .raised :=
  C7_malformed_propagates.2 ['u'] ['m'] 0
    [⟨_make_key ['u'] ['m'], ['m'], ['u'], [0, 0, 0, 0, 0], 0⟩]
    ⟨_make_key ['u'] ['m'], ['m'], ['u'], [0, 0, 0, 0, 0], 0⟩
    (by decide) (by decide) (by decide)

theorem rowOf_eq_some {s : Store} (hwf : s.WFKeys) {e : Entry} (he : e ∈ s) :
    rowOf s e.key = some e := by
  induction s with
  | nil => cases he
  | cons f rest ih =>
    rcases List.mem_cons.mp he with rfl | hmem
    · simp [rowOf, List.find?]
    · have hne : ¬ f.key = e.key := by
        intro hk
        exact (List.nodup_cons.mp hwf).1 (hk ▸ List.mem_map_of_mem Entry.key hmem)
      simpa [rowOf, List.find?, hne] using
        ih (List.nodup_cons.mp hwf).2 hmem

theorem deleteKey_length_of_mem {s : Store} (hwf : s.WFKeys) {e : Entry}
    (he : e ∈ s) : (deleteKey s e.key).length = s.length - 1 := by
  induction s with
  | nil => cases he
  | cons f rest ih =>
    rcases List.mem_cons.mp he with rfl | hmem
    · have hnone : ∀ x ∈ rest, ¬ x.key = e.key := by
        intro x hx hk
        exact (List.nodup_cons.mp hwf).1 (hk ▸ List.mem_map_of_mem Entry.key hx)
      have hdel : deleteKey rest e.key = rest := by
        apply List.filter_eq_self.mpr
        intro x hx
        simpa using hnone x hx
      simp [deleteKey, hdel]
      exact hnone
    · have hne : ¬ f.key = e.key := by
        intro hk
        exact (List.nodup_cons.mp hwf).1 (hk ▸ List.mem_map_of_mem Entry.key hmem)
      have hrest := ih (List.nodup_cons.mp hwf).2 hmem
      have hpos : 0 < rest.length := List.length_pos.mpr (by
        intro hnil
        rw [hnil] at hmem
        cases hmem)
      simp only [deleteKey, List.filter_cons, decide_eq_true_eq] at *
      rw [if_pos (by simpa using hne)]
      simp only [List.length_cons]
      omega

theorem notMem_deleteKey (s : Store) (e : Entry) : e ∉ deleteKey s e.key := by
  intro hmem
  have := (List.mem_filter.mp hmem).2
  simp at this

/-- C3: a record is expired iff `now - created_at > TTL_SECONDS` (strictly);
a stored record past TTL makes `get_embedding_from_cache` return absent and
deletes exactly that record (count drops by one); a record within TTL is
returned (its decoded blob) and nothing is deleted. -/
theorem C3_ttl_expiry (text model : Str) (now : Int) (s : Store)
    (hwf : s.WFKeys) (e : Entry) (he : e ∈ s)
    (hkey : e.key = _make_key text model) :
    (isExpired now e = true ↔ now - e.created_at > TTL_SECONDS) ∧
    (now - e.created_at > TTL_SECONDS →
      (get_embedding_from_cache text model now s).1 = .absent ∧
      (get_embedding_from_cache text model now s).2.length = s.length - 1 ∧
      e ∉ (get_embedding_from_cache text model now s).2) ∧
    (now - e.created_at ≤ TTL_SECONDS →
      (∀ v, _deserialize_emb e.emb = some v →
        (get_embedding_from_cache text model now s).1 = .found v) ∧
      (get_embedding_from_cache text model now s).2 = s) := by
  have httl : TTL_SECONDS ≠ 0 := by decide
  have hiff : isExpired now e = true ↔ now - e.created_at > TTL_SECONDS := by
    unfold isExpired
    simp [httl]
  have hrow : rowOf s (_make_key text model) = some e := hkey ▸ rowOf_eq_some hwf he
  refine ⟨hiff, ?_, ?_⟩
  · intro hgt
    have hexp : isExpired now e = true := hiff.mpr hgt
    simp only [get_embedding_from_cache, hrow, hexp, if_true]
    refine ⟨by trivial, ?_, ?_⟩
    · simpa using hkey ▸ deleteKey_length_of_mem hwf he
    · simpa using hkey ▸ notMem_deleteKey s e
  · intro hle
    have hexp : isExpired now e = false := by
      rw [← Bool.not_eq_true, hiff]
      omega
    constructor
    · intro v hv
      simp [get_embedding_from_cache, hrow, hexp, hv]
    · simp [get_embedding_from_cache, hrow, hexp]
      cases hd : _deserialize_emb e.emb <;> simp

theorem C3_witness :
    (get_embedding_from_cache ['a'] ['m'] 2592001
      [⟨_make_key ['a'] ['m'], ['m'], ['a'], [7, 0, 0, 0], 0⟩]).1 = .absent ∧
    (get_embedding_from_cache ['a'] ['m'] 2592001
      [⟨_make_key ['a'] ['m'], ['m'], ['a'], [7, 0, 0, 0], 0⟩]).2.length = 0 := by
  obtain ⟨-, h2, -⟩ := C3_ttl_expiry ['a'] ['m'] 2592001
    [⟨_make_key ['a'] ['m'], ['m'], ['a'], [7, 0, 0, 0], 0⟩]
    (by simp [Store.WFKeys])
    ⟨_make_key ['a'] ['m'], ['m'], ['a'], [7, 0, 0, 0], 0⟩ (by decide) (by decide)
  obtain ⟨ha, hl, -⟩ := h2 (by decide)
  refine ⟨ha, ?_⟩
  rw [hl]
  rfl

theorem key_injOn {s : Store} (hwf : s.WFKeys) {a b : Entry} (ha : a ∈ s)
    (hb : b ∈ s) (hk : a.key = b.key) : a = b :=
  List.inj_on_of_nodup_map hwf ha hb hk


/-- What one eviction pass (`DELETE ... WHERE key IN (SELECT key ...
ORDER BY created_at ASC LIMIT k)`) does to a store with distinct keys:
exactly `k` rows disappear, the survivors are original rows, and every
deleted row is no younger than every surviving row. -/
theorem evict_facts (s1 : Store) (hwf : s1.WFKeys) (k : Nat) :
    (s1.filter (fun e => decide (¬ e.key ∈ oldestKeys s1 k))).length = s1.length - k ∧
    (∀ e ∈ s1.filter (fun e => decide (¬ e.key ∈ oldestKeys s1 k)), e ∈ s1) ∧
    (∀ e ∈ s1, e ∉ s1.filter (fun e => decide (¬ e.key ∈ oldestKeys s1 k)) →
      ∀ e2 ∈ s1.filter (fun e => decide (¬ e.key ∈ oldestKeys s1 k)),
        e.created_at ≤ e2.created_at) := by
  have hperm : List.Perm (s1.insertionSort byAge) s1 := List.perm_insertionSort byAge s1
  have hsortwf : ((s1.insertionSort byAge).map Entry.key).Nodup :=
    ((hperm.map Entry.key).nodup_iff).mpr hwf
  set sorted := s1.insertionSort byAge with hsorted_def
  set p := fun e : Entry => decide (¬ e.key ∈ oldestKeys s1 k) with hp
  have htake : ∀ e ∈ sorted.take k, p e = false := by
    intro e he
    simp only [hp, decide_eq_false_iff_not, not_not, oldestKeys, ← hsorted_def]
    exact List.mem_map_of_mem Entry.key he
  have hdrop : ∀ e ∈ sorted.drop k, p e = true := by
    intro e he
    simp only [hp, decide_eq_true_eq, oldestKeys, ← hsorted_def]
    intro hmem
    have hnodup := hsortwf
    rw [← List.take_append_drop k sorted, List.map_append] at hnodup
    exact (List.nodup_append.mp hnodup).2.2 hmem (List.mem_map_of_mem Entry.key he)
  have hfilter_sorted : sorted.filter p = sorted.drop k := by
    conv_lhs => rw [← List.take_append_drop k sorted]
    rw [List.filter_append,
      List.filter_eq_nil_iff.mpr (fun a ha => by rw [htake a ha]; exact Bool.false_ne_true),
      List.filter_eq_self.mpr hdrop, List.nil_append]
  have hlen : (s1.filter p).length = s1.length - k := by
    have hpermf : List.Perm (s1.filter p) (sorted.filter p) := (hperm.filter p).symm
    rw [hpermf.length_eq, hfilter_sorted, List.length_drop, hperm.length_eq]
  have hpw : ∀ a ∈ sorted.take k, ∀ b ∈ sorted.drop k, byAge a b := by
    have h : List.Sorted byAge sorted := List.sorted_insertionSort byAge s1
    rw [← List.take_append_drop k sorted] at h
    exact fun a ha b hb => (List.pairwise_append.mp h).2.2 a ha b hb
  refine ⟨hlen, fun e he => List.mem_of_mem_filter he, ?_⟩
  intro e he hnotin e2 he2
  have hpe : p e = false := by
    cases hpev : p e with
    | false => rfl
    | true => exact absurd (List.mem_filter.mpr ⟨he, hpev⟩) hnotin
  have hek : e.key ∈ (sorted.take k).map Entry.key := by
    have := hpe
    simp only [hp, decide_eq_false_iff_not, not_not, oldestKeys,
      ← hsorted_def] at this
    exact this
  obtain ⟨d, hd, hdk⟩ := List.mem_map.mp hek
  have hds1 : d ∈ s1 := hperm.mem_iff.mp (List.take_subset k sorted hd)
  have hde : d = e := key_injOn hwf hds1 he hdk
  have hpe2 : p e2 = true := (List.mem_filter.mp he2).2
  have he2s : e2 ∈ sorted := hperm.mem_iff.mpr (List.mem_of_mem_filter he2)
  have he2drop : e2 ∈ sorted.drop k := by
    rw [← List.take_append_drop k sorted] at he2s
    rcases List.mem_append.mp he2s with h | h
    · rw [htake e2 h] at hpe2
      exact absurd hpe2 Bool.false_ne_true
    · exact h
  exact hde ▸ hpw d hd e2 he2drop

theorem insertStep_WFKeys {s : Store} (hwf : s.WFKeys) (text model : Str)
    (emb : List Nat) (now : Int) : (insertStep text model emb now s).WFKeys := by
  unfold insertStep Store.WFKeys
  rw [List.map_append]
  apply List.Nodup.append
  · exact ((List.filter_sublist s).map Entry.key).nodup hwf
  · simp
  · intro x hx1 hx2
    simp only [List.map_cons, List.map_nil, List.mem_singleton] at hx2
    subst hx2
    obtain ⟨e, he, hk⟩ := List.mem_map.mp hx1
    have := (List.mem_filter.mp he).2
    simp [hk] at this

/-- C2: after every `put_embedding_in_cache`, the eviction step is a no-op
when the post-insert count `N` is at most `MAX_ENTRIES`; otherwise the
count on return is `MAX_ENTRIES * 9 / 10` (so exactly
`N - MAX_ENTRIES * 9 / 10` records were deleted), every surviving record is
one of the inserted store's records, and deletion is strictly oldest-first
(every deleted record is no younger than every kept one); in all cases the
count when `put` returns is at most `MAX_ENTRIES`. -/
theorem C2_eviction (text model : Str) (emb : List Nat) (now : Int) (s : Store)
    (hwf : s.WFKeys) :
    ((insertStep text model emb now s).length ≤ MAX_ENTRIES →
      put_embedding_in_cache text model emb now s = insertStep text model emb now s) ∧
    ((insertStep text model emb now s).length > MAX_ENTRIES →
      (put_embedding_in_cache text model emb now s).length = MAX_ENTRIES * 9 / 10 ∧
      (∀ e ∈ put_embedding_in_cache text model emb now s,
        e ∈ insertStep text model emb now s) ∧
      (∀ e ∈ insertStep text model emb now s,
        e ∉ put_embedding_in_cache text model emb now s →
        ∀ e2 ∈ put_embedding_in_cache text model emb now s,
          e.created_at ≤ e2.created_at)) ∧
    (put_embedding_in_cache text model emb now s).length ≤ MAX_ENTRIES := by
  have hwf1 : (insertStep text model emb now s).WFKeys :=
    insertStep_WFKeys hwf text model emb now
  set s1 := insertStep text model emb now s with hs1
  have hMAX : MAX_ENTRIES = 200000 := rfl
  have hcut : MAX_ENTRIES * 9 / 10 = 180000 := by decide
  by_cases hgt : s1.length > MAX_ENTRIES
  · have hput : put_embedding_in_cache text model emb now s =
        s1.filter (fun e =>
          decide (¬ e.key ∈ oldestKeys s1 (s1.length - MAX_ENTRIES * 9 / 10))) := by
      simp only [put_embedding_in_cache, ← hs1]
      rw [if_pos hgt]
    obtain ⟨hlen, hmem, hold⟩ :=
      evict_facts s1 hwf1 (s1.length - MAX_ENTRIES * 9 / 10)
    refine ⟨fun hle => absurd hgt (by omega), fun _ => ⟨?_, ?_, ?_⟩, ?_⟩
    · rw [hput, hlen, hcut]
      rw [hMAX] at hgt
      rw [hcut] at *
      omega
    · intro e he
      exact hmem e (hput ▸ he)
    · intro e he hnot e2 he2
      exact hold e he (fun hc => hnot (hput ▸ hc)) e2 (hput ▸ he2)
    · rw [hput, hlen]
      omega
  · have hput : put_embedding_in_cache text model emb now s = s1 := by
      simp only [put_embedding_in_cache, ← hs1]
      rw [if_neg hgt]
    refine ⟨fun _ => hput, fun hgt2 => absurd hgt2 hgt, ?_⟩
    rw [hput]
    omega

theorem C2_witness :
    put_embedding_in_cache ['a'] ['m'] [1] 5 [] = insertStep ['a'] ['m'] [1] 5 [] ∧
    (put_embedding_in_cache ['a'] ['m'] [1] 5 []).length ≤ MAX_ENTRIES := by
  obtain ⟨h1, -, h3⟩ := C2_eviction ['a'] ['m'] [1] 5 [] (by simp [Store.WFKeys])
  exact ⟨h1 (by decide), h3⟩

/-- C10: when the inserted record's `created_at` (= `now`) is strictly
greater than every previously stored record's, the eviction pass of the
same `put` call never deletes the record just inserted; every surviving
record is one of the post-insert store's records unchanged, and anything
deleted is distinct from the new record and no younger than every kept
record (it came from the oldest slice). -/
theorem C10_self_preservation (text model : Str) (emb : List Nat) (now : Int)
    (s : Store) (hwf : s.WFKeys) (hnew : ∀ e ∈ s, e.created_at < now) :
    (⟨_make_key text model, model, text.take 2000, _serialize_emb emb, now⟩ : Entry) ∈
      put_embedding_in_cache text model emb now s ∧
    (∀ e ∈ put_embedding_in_cache text model emb now s,
      e ∈ insertStep text model emb now s) ∧
    (∀ e ∈ insertStep text model emb now s,
      e ∉ put_embedding_in_cache text model emb now s →
      e ≠ ⟨_make_key text model, model, text.take 2000, _serialize_emb emb, now⟩ ∧
      ∀ e2 ∈ put_embedding_in_cache text model emb now s,
        e.created_at ≤ e2.created_at) := by
  have hwf1 : (insertStep text model emb now s).WFKeys :=
    insertStep_WFKeys hwf text model emb now
  set newE : Entry :=
    ⟨_make_key text model, model, text.take 2000, _serialize_emb emb, now⟩ with hnewE
  have hnewmem : newE ∈ insertStep text model emb now s := by
    unfold insertStep
    exact List.mem_append_right _ (List.mem_singleton.mpr rfl)
  set s1 := insertStep text model emb now s with hs1
  have hMAX : MAX_ENTRIES = 200000 := rfl
  have hcut : MAX_ENTRIES * 9 / 10 = 180000 := by decide
  by_cases hgt : s1.length > MAX_ENTRIES
  · have hput : put_embedding_in_cache text model emb now s =
        s1.filter (fun e =>
          decide (¬ e.key ∈ oldestKeys s1 (s1.length - MAX_ENTRIES * 9 / 10))) := by
      simp only [put_embedding_in_cache, ← hs1]
      rw [if_pos hgt]
    obtain ⟨hlen, hmem, hold⟩ :=
      evict_facts s1 hwf1 (s1.length - MAX_ENTRIES * 9 / 10)
    have hpos : 0 < (s1.filter (fun e =>
        decide (¬ e.key ∈ oldestKeys s1 (s1.length - MAX_ENTRIES * 9 / 10)))).length := by
      rw [hlen]
      rw [hMAX] at hgt
      rw [hcut] at *
      omega
    have hnewin : newE ∈ s1.filter (fun e =>
        decide (¬ e.key ∈ oldestKeys s1 (s1.length - MAX_ENTRIES * 9 / 10))) := by
      by_contra hnot
      obtain ⟨e2, he2⟩ := List.exists_mem_of_length_pos hpos
      have h1 : newE.created_at ≤ e2.created_at := hold newE hnewmem hnot e2 he2
      have he2s1 : e2 ∈ s1 := hmem e2 he2
      have hne : e2 ≠ newE := fun h => hnot (h ▸ he2)
      have he2s : e2 ∈ s := by
        rcases List.mem_append.mp (hs1 ▸ he2s1) with h | h
        · exact List.mem_of_mem_filter h
        · exact absurd (List.mem_singleton.mp h) hne
      have h2 := hnew e2 he2s
      rw [hnewE] at h1
      simp only at h1
      omega
    refine ⟨hput ▸ hnewin, fun e he => hmem e (hput ▸ he), ?_⟩
    intro e he hnot
    have hnot' : e ∉ s1.filter (fun e =>
        decide (¬ e.key ∈ oldestKeys s1 (s1.length - MAX_ENTRIES * 9 / 10))) :=
      fun hc => hnot (hput ▸ hc)
    refine ⟨fun h => hnot' (h ▸ hnewin), ?_⟩
    intro e2 he2
    exact hold e he hnot' e2 (hput ▸ he2)
  · have hput : put_embedding_in_cache text model emb now s = s1 := by
      simp only [put_embedding_in_cache, ← hs1]
      rw [if_neg hgt]
    refine ⟨hput ▸ hnewmem, fun e he => hput ▸ he, ?_⟩
    intro e he hnot
    rw [hput] at hnot
    exact absurd he hnot

theorem C10_witness :
    (⟨_make_key ['a'] ['m'], ['m'], ['a'], _serialize_emb [1], 5⟩ : Entry) ∈
      put_embedding_in_cache ['a'] ['m'] [1] 5 [] :=
  (C10_self_preservation ['a'] ['m'] [1] 5 [] (by simp [Store.WFKeys])
    (by simp)).1

/-- `key_to_idxs.get(k, [])`: the ascending positions whose key is `k`. -/
def keyToIdxs (keys : List Str) (k : Str) : List Nat :=
  (List.range keys.length).filter (fun i => decide (keys[i]? = some k))

/-- Running state of the batch loop: the `found` dict as an association
list (latest write first) and the `expired_keys` set as a duplicate-free
list in insertion order. -/
structure BatchState where
  found : List (Nat × List Nat)
  expired : List Str

/-- Dict lookup in `found`. -/
def lookupFound (f : List (Nat × List Nat)) (i : Nat) : Option (List Nat) :=
  (f.find? (fun p => p.1 == i)).map Prod.snd

/-- `expired_keys.add(k)`. -/
def addExpired (l : List Str) (k : Str) : List Str :=
  if k ∈ l then l else l ++ [k]

/-- The body of `for key, emb_blob, created_at in rows`: an expired row
only records its key; a live row decodes (an undecodable blob raises,
modelled `none`) and populates every position sharing its key. -/
def processRow (kti : Str → List Nat) (now : Int) (st : BatchState) (e : Entry) :
    Option BatchState :=
  if isExpired now e then some { st with expired := addExpired st.expired e.key }
  else
    match _deserialize_emb e.emb with
    | none => none
    | some v =>
      some { st with found := (kti e.key).foldl (fun f i => (i, v) :: f) st.found }

def processRows (kti : Str → List Nat) (now : Int) :
    List Entry → BatchState → Option BatchState
  | [], st => some st
  | e :: rest, st =>
    match processRow kti now st e with
    | none => none
    | some st' => processRows kti now rest st'

/-- The rows `SELECT key, emb, created_at ... WHERE key IN (chunk)`
returns (in the model, in store order). -/
def chunkRows (s : Store) (c : List Str) : List Entry :=
  s.filter (fun e => decide (e.key ∈ c))

def processChunks (s : Store) (kti : Str → List Nat) (now : Int) :
    List (List Str) → BatchState → Option BatchState
  | [], st => some st
  | c :: cs, st =>
    match processRows kti now (chunkRows s c) st with
    | none => none
    | some st' => processChunks s kti now cs st'

/-- `MAX_VARS = 900` (SQLite bound-variable ceiling). -/
def MAX_VARS : Nat := 900

def chunksOfAux : Nat → Nat → List Str → List (List Str)
  | _, _, [] => []
  | 0, _, _ => []
  | fuel + 1, n, l => l.take n :: chunksOfAux fuel n (l.drop n)

/-- `keys[i:i+MAX_VARS] for i in range(0, len(keys), MAX_VARS)` (the fuel
is just enough structural recursion; `fuel = l.length` never runs out for
`0 < n`). -/
def chunksOf (n : Nat) (l : List Str) : List (List Str) := chunksOfAux l.length n l

/-- `batch_get_embeddings`: `(found, missing)` and the store after the
call (expired keys deleted); `none` models an uncaught decode exception. -/
def batch_get_embeddings (texts : List Str) (model : Str) (now : Int) (s : Store) :
    Option ((List (Nat × List Nat)) × List Nat × Store) :=
  if texts = [] then some ([], [], s)
  else
    let keys := texts.map (fun t => _make_key t model)
    match processChunks s (keyToIdxs keys) now (chunksOf MAX_VARS keys) ⟨[], []⟩ with
    | none => none
    | some st =>
      let missing := (List.range texts.length).filter
        (fun i => decide (lookupFound st.found i = none))
      let s2 := if st.expired = [] then s
        else s.filter (fun e => decide (¬ e.key ∈ st.expired))
      some (st.found, missing, s2)

/-- The resolver of §4.6 of the spec issuing a single unchunked query over
all keys: identical to `batch_get_embeddings` except that the chunk loop is
replaced by one query; used to state the chunking-equivalence claim. -/
def batch_get_embeddings_unchunked (texts : List Str) (model : Str) (now : Int)
    (s : Store) : Option ((List (Nat × List Nat)) × List Nat × Store) :=
  if texts = [] then some ([], [], s)
  else
    let keys := texts.map (fun t => _make_key t model)
    match processChunks s (keyToIdxs keys) now [keys] ⟨[], []⟩ with
    | none => none
    | some st =>
      let missing := (List.range texts.length).filter
        (fun i => decide (lookupFound st.found i = none))
      let s2 := if st.expired = [] then s
        else s.filter (fun e => decide (¬ e.key ∈ st.expired))
      some (st.found, missing, s2)

/-- The per-position value the batch loop aims at: position `i`'s key's
unique row, TTL-filtered and decoded. -/
def hitOpt (s : Store) (keys : List Str) (now : Int) (i : Nat) : Option (List Nat) :=
  match keys[i]? with
  | none => none
  | some k =>
    match rowOf s k with
    | none => none
    | some e => if isExpired now e then none else _deserialize_emb e.emb

theorem mem_keyToIdxs {keys : List Str} {k : Str} {i : Nat} :
    i ∈ keyToIdxs keys k ↔ keys[i]? = some k := by
  unfold keyToIdxs
  simp only [List.mem_filter, List.mem_range, decide_eq_true_eq]
  constructor
  · exact fun h => h.2
  · intro h
    refine ⟨?_, h⟩
    by_contra hge
    rw [List.getElem?_eq_none (by omega)] at h
    cases h

theorem rowOf_some {s : Store} {k : Str} {e : Entry} (h : rowOf s k = some e) :
    e ∈ s ∧ e.key = k := by
  refine ⟨List.mem_of_find?_eq_some h, ?_⟩
  have := List.find?_some h
  simpa using this

theorem lookupFound_cons (j : Nat) (v : List Nat) (f : List (Nat × List Nat))
    (i : Nat) : lookupFound ((j, v) :: f) i =
      if j = i then some v else lookupFound f i := by
  by_cases h : j = i
  · simp [lookupFound, List.find?, h]
  · have hb : (j == i) = false := beq_eq_false_iff_ne.mpr h
    simp [lookupFound, List.find?, hb, h]

theorem lookupFound_fold (idxs : List Nat) (v : List Nat)
    (f : List (Nat × List Nat)) (i : Nat) :
    lookupFound (idxs.foldl (fun acc j => (j, v) :: acc) f) i =
      if i ∈ idxs then some v else lookupFound f i := by
  induction idxs generalizing f with
  | nil => simp
  | cons j rest ih =>
    simp only [List.foldl_cons]
    rw [ih ((j, v) :: f), lookupFound_cons]
    by_cases hr : i ∈ rest
    · simp [hr]
    · by_cases hij : i = j
      · simp [hr, hij]
      · simp [hr, hij]
        exact fun h => absurd h.symm hij

theorem mem_addExpired {l : List Str} {k k' : Str} :
    k' ∈ addExpired l k ↔ k' ∈ l ∨ k' = k := by
  unfold addExpired
  by_cases h : k ∈ l
  · simp only [if_pos h]
    exact ⟨Or.inl, fun hor => hor.elim id (fun he => he ▸ h)⟩
  · simp [if_neg h]

theorem nodup_addExpired {l : List Str} (h : l.Nodup) (k : Str) :
    (addExpired l k).Nodup := by
  unfold addExpired
  by_cases hm : k ∈ l
  · simpa [if_pos hm] using h
  · simp only [if_neg hm]
    exact List.Nodup.append h (List.nodup_singleton k)
      (fun x hx hk => hm ((List.mem_singleton.mp hk) ▸ hx))

theorem flatten_chunksOfAux : ∀ (fuel n : Nat) (l : List Str),
    l.length ≤ fuel → 0 < n → (chunksOfAux fuel n l).flatten = l := by
  intro fuel
  induction fuel with
  | zero =>
    intro n l hl _
    match l with
    | [] => rfl
    | x :: xs => simp at hl
  | succ fuel ih =>
    intro n l hl hn
    match l with
    | [] => rfl
    | x :: xs =>
      show ((x :: xs).take n :: chunksOfAux fuel n ((x :: xs).drop n)).flatten
        = x :: xs
      rw [List.flatten_cons,
        ih n ((x :: xs).drop n)
          (by
            have hl' : xs.length + 1 ≤ fuel + 1 := by simpa using hl
            simp only [List.length_drop, List.length_cons]
            omega) hn,
        List.take_append_drop]

theorem flatten_chunksOf (n : Nat) (hn : 0 < n) (l : List Str) :
    (chunksOf n l).flatten = l :=
  flatten_chunksOfAux l.length n l le_rfl hn

theorem hitOpt_ne_none {s : Store} {keys : List Str} {now : Int} {i : Nat}
    (h : hitOpt s keys now i ≠ none) :
    ∃ k e, keys[i]? = some k ∧ rowOf s k = some e ∧ isExpired now e = false := by
  cases hk : keys[i]? with
  | none => exact absurd (by simp [hitOpt, hk]) h
  | some k =>
    cases hrow : rowOf s k with
    | none => exact absurd (by simp [hitOpt, hk, hrow]) h
    | some e =>
      cases hexp : isExpired now e with
      | false => exact ⟨k, e, rfl, hrow, hexp⟩
      | true => exact absurd (by simp [hitOpt, hk, hrow, hexp]) h

/-- Invariants of the row loop over one result set `R` of rows of the
store: on well-formed blobs the loop succeeds; `found` entries always agree
with `hitOpt`; `found` only grows; new `found` entries come from rows of
`R`; every live row of `R` populates all its positions; and `expired`
collects exactly the keys of `R`'s expired rows, without duplicates. -/
theorem processRows_spec (s : Store) (keys : List Str) (now : Int)
    (hwf : s.WFKeys) (hwfb : s.WFBlobs) :
    ∀ (R : List Entry) (st : BatchState),
    (∀ r ∈ R, r ∈ s) →
    (∀ i v, lookupFound st.found i = some v → hitOpt s keys now i = some v) →
    ∃ st', processRows (keyToIdxs keys) now R st = some st' ∧
      (∀ i v, lookupFound st'.found i = some v → hitOpt s keys now i = some v) ∧
      (∀ i, lookupFound st.found i ≠ none → lookupFound st'.found i ≠ none) ∧
      (∀ i, lookupFound st'.found i ≠ none →
        lookupFound st.found i ≠ none ∨ ∃ r ∈ R, keys[i]? = some r.key) ∧
      (∀ r ∈ R, isExpired now r = false → ∀ i, keys[i]? = some r.key →
        lookupFound st'.found i ≠ none) ∧
      (∀ k, k ∈ st'.expired ↔ k ∈ st.expired ∨
        ∃ r ∈ R, r.key = k ∧ isExpired now r = true) ∧
      (st.expired.Nodup → st'.expired.Nodup) := by
  intro R
  induction R with
  | nil =>
    intro st _ hgood
    refine ⟨st, rfl, hgood, fun i h => h, fun i h => Or.inl h, ?_, ?_, fun h => h⟩
    · intro r hr
      exact absurd hr (List.not_mem_nil r)
    · intro k
      simp
  | cons r rest ih =>
    intro st hsub hgood
    by_cases hexp : isExpired now r = true
    · have hstep : processRow (keyToIdxs keys) now st r =
          some { st with expired := addExpired st.expired r.key } := by
        simp [processRow, hexp]
      obtain ⟨st', hrun, hgood', hmono, horig, hreach, hexpiff, hnodup⟩ :=
        ih { st with expired := addExpired st.expired r.key }
          (fun x hx => hsub x (List.mem_cons_of_mem r hx)) hgood
      refine ⟨st', ?_, hgood', hmono, ?_, ?_, ?_, ?_⟩
      · simp [processRows, hstep, hrun]
      · intro i h
        rcases horig i h with h' | ⟨r', hr', hk⟩
        · exact Or.inl h'
        · exact Or.inr ⟨r', List.mem_cons_of_mem r hr', hk⟩
      · intro r' hr' hlive i hk
        rcases List.mem_cons.mp hr' with rfl | hr'
        · rw [hexp] at hlive; cases hlive
        · exact hreach r' hr' hlive i hk
      · intro k
        rw [hexpiff k]
        constructor
        · rintro (hk | ⟨r', hr', hkk, he⟩)
          · rcases mem_addExpired.mp hk with h | h
            · exact Or.inl h
            · exact Or.inr ⟨r, List.mem_cons_self r rest, h.symm, hexp⟩
          · exact Or.inr ⟨r', List.mem_cons_of_mem r hr', hkk, he⟩
        · rintro (hk | ⟨r', hr', hkk, he⟩)
          · exact Or.inl (mem_addExpired.mpr (Or.inl hk))
          · rcases List.mem_cons.mp hr' with rfl | hr'
            · exact Or.inl (mem_addExpired.mpr (Or.inr hkk.symm))
            · exact Or.inr ⟨r', hr', hkk, he⟩
      · intro hnd
        exact hnodup (nodup_addExpired hnd r.key)
    · have hrs : r ∈ s := hsub r (List.mem_cons_self r rest)
      obtain ⟨v, hv⟩ := Option.isSome_iff_exists.mp (hwfb r hrs)
      have hexp' : isExpired now r = false := by
        cases h : isExpired now r
        · rfl
        · exact absurd h hexp
      have hrow : rowOf s r.key = some r := rowOf_eq_some hwf hrs
      set stM : BatchState :=
        ⟨(keyToIdxs keys r.key).foldl (fun f j => (j, v) :: f) st.found,
          st.expired⟩ with hstM
      have hstep : processRow (keyToIdxs keys) now st r = some stM := by
        rw [hstM]
        simp [processRow, hexp', hv]
      have hlookM : ∀ i, lookupFound stM.found i =
          if i ∈ keyToIdxs keys r.key then some v else lookupFound st.found i := by
        intro i
        rw [hstM]
        exact lookupFound_fold _ v st.found i
      have hgoodM : ∀ i w, lookupFound stM.found i = some w →
          hitOpt s keys now i = some w := by
        intro i w hw
        rw [hlookM i] at hw
        by_cases hin : i ∈ keyToIdxs keys r.key
        · rw [if_pos hin] at hw
          have hk : keys[i]? = some r.key := mem_keyToIdxs.mp hin
          simp only [hitOpt, hk, hrow, hexp', Bool.false_eq_true, if_false, hv]
          exact hw
        · rw [if_neg hin] at hw
          exact hgood i w hw
      obtain ⟨st', hrun, hgood', hmono, horig, hreach, hexpiff, hnodup⟩ :=
        ih stM (fun x hx => hsub x (List.mem_cons_of_mem r hx)) hgoodM
      have hexpM : stM.expired = st.expired := by rw [hstM]
      refine ⟨st', ?_, hgood', ?_, ?_, ?_, ?_, ?_⟩
      · simp [processRows, hstep, hrun]
      · intro i h
        apply hmono
        rw [hlookM i]
        by_cases hin : i ∈ keyToIdxs keys r.key
        · rw [if_pos hin]
          simp
        · rw [if_neg hin]
          exact h
      · intro i h
        rcases horig i h with h' | ⟨r', hr', hk⟩
        · rw [hlookM i] at h'
          by_cases hin : i ∈ keyToIdxs keys r.key
          · exact Or.inr ⟨r, List.mem_cons_self r rest, mem_keyToIdxs.mp hin⟩
          · rw [if_neg hin] at h'
            exact Or.inl h'
        · exact Or.inr ⟨r', List.mem_cons_of_mem r hr', hk⟩
      · intro r' hr' hlive i hk
        rcases List.mem_cons.mp hr' with rfl | hr'
        · apply hmono
          rw [hlookM i, if_pos (mem_keyToIdxs.mpr hk)]
          simp
        · exact hreach r' hr' hlive i hk
      · intro k
        rw [hexpiff k, hexpM]
        constructor
        · rintro (hk | ⟨r', hr', hkk, he⟩)
          · exact Or.inl hk
          · exact Or.inr ⟨r', List.mem_cons_of_mem r hr', hkk, he⟩
        · rintro (hk | ⟨r', hr', hkk, he⟩)
          · exact Or.inl hk
          · rcases List.mem_cons.mp hr' with rfl | hr'
            · rw [hexp'] at he
              cases he
            · exact Or.inr ⟨r', hr', hkk, he⟩
      · intro hnd
        apply hnodup
        rw [hexpM]
        exact hnd

/-- Lifting `processRows_spec` over the chunk loop: after processing a
chunk list `C`, `found` agrees with `hitOpt` and is populated exactly at
the positions whose key occurs in `C.flatten` and has a live row, and
`expired` holds exactly the keys of `C.flatten` with an expired row. -/
theorem processChunks_spec (s : Store) (keys : List Str) (now : Int)
    (hwf : s.WFKeys) (hwfb : s.WFBlobs) :
    ∀ (C : List (List Str)) (st : BatchState),
    (∀ i v, lookupFound st.found i = some v → hitOpt s keys now i = some v) →
    ∃ st', processChunks s (keyToIdxs keys) now C st = some st' ∧
      (∀ i v, lookupFound st'.found i = some v → hitOpt s keys now i = some v) ∧
      (∀ i, lookupFound st.found i ≠ none → lookupFound st'.found i ≠ none) ∧
      (∀ i, lookupFound st'.found i ≠ none →
        lookupFound st.found i ≠ none ∨ ∃ k, keys[i]? = some k ∧ k ∈ C.flatten) ∧
      (∀ i k, keys[i]? = some k → k ∈ C.flatten → hitOpt s keys now i ≠ none →
        lookupFound st'.found i ≠ none) ∧
      (∀ k, k ∈ st'.expired ↔ k ∈ st.expired ∨
        (k ∈ C.flatten ∧ ∃ e, rowOf s k = some e ∧ isExpired now e = true)) ∧
      (st.expired.Nodup → st'.expired.Nodup) := by
  intro C
  induction C with
  | nil =>
    intro st hgood
    refine ⟨st, rfl, hgood, fun i h => h, fun i h => Or.inl h, ?_, ?_, fun h => h⟩
    · intro i k _ hk _
      exact absurd hk (List.not_mem_nil k)
    · intro k
      simp
  | cons c cs ih =>
    intro st hgood
    obtain ⟨stM, hrunM, hgoodM, hmonoM, horigM, hreachM, hexpiffM, hnodupM⟩ :=
      processRows_spec s keys now hwf hwfb (chunkRows s c) st
        (fun r hr => List.mem_of_mem_filter hr) hgood
    obtain ⟨st', hrun, hgood', hmono, horig, hreach, hexpiff, hnodup⟩ := ih stM hgoodM
    refine ⟨st', ?_, hgood', fun i h => hmono i (hmonoM i h), ?_, ?_, ?_,
      fun h => hnodup (hnodupM h)⟩
    · simp [processChunks, hrunM, hrun]
    · intro i h
      rcases horig i h with h' | ⟨k, hk, hkcs⟩
      · rcases horigM i h' with h'' | ⟨r, hr, hk⟩
        · exact Or.inl h''
        · have hrc : r.key ∈ c := by
            simpa using (List.mem_filter.mp hr).2
          exact Or.inr ⟨r.key, hk, by
            rw [List.flatten_cons]
            exact List.mem_append_left _ hrc⟩
      · exact Or.inr ⟨k, hk, by
          rw [List.flatten_cons]
          exact List.mem_append_right _ hkcs⟩
    · intro i k hk hkfl hhit
      rw [List.flatten_cons] at hkfl
      rcases List.mem_append.mp hkfl with hkc | hkcs
      · obtain ⟨k', e, hk', hrowk, hlive⟩ := hitOpt_ne_none hhit
        have hkk : k' = k := by
          rw [hk] at hk'
          exact (Option.some.inj hk').symm
        subst hkk
        obtain ⟨hes, hek⟩ := rowOf_some hrowk
        have hechunk : e ∈ chunkRows s c :=
          List.mem_filter.mpr ⟨hes, by simp [hek, hkc]⟩
        exact hmono i (hreachM e hechunk hlive i (by rw [hek]; exact hk))
      · exact hreach i k hk hkcs hhit
    · intro k
      rw [hexpiff k, hexpiffM k, List.flatten_cons]
      constructor
      · rintro ((hk | ⟨r, hr, hkk, he⟩) | ⟨hkfl, e, hrowk, he⟩)
        · exact Or.inl hk
        · have hrs : r ∈ s := List.mem_of_mem_filter hr
          have hrc : r.key ∈ c := by
            simpa using (List.mem_filter.mp hr).2
          refine Or.inr ⟨List.mem_append_left _ (hkk ▸ hrc), r, ?_, he⟩
          rw [← hkk]
          exact rowOf_eq_some hwf hrs
        · exact Or.inr ⟨List.mem_append_right _ hkfl, e, hrowk, he⟩
      · rintro (hk | ⟨hkfl, e, hrowk, he⟩)
        · exact Or.inl (Or.inl hk)
        · obtain ⟨hes, hek⟩ := rowOf_some hrowk
          rcases List.mem_append.mp hkfl with hkc | hkcs
          · exact Or.inl (Or.inr ⟨e, List.mem_filter.mpr ⟨hes, by simp [hek, hkc]⟩,
              hek, he⟩)
          · exact Or.inr ⟨hkcs, e, hrowk, he⟩

theorem lookup_eq_hitOpt (s : Store) (keys : List Str) (now : Int)
    (st : BatchState)
    (hgood : ∀ i v, lookupFound st.found i = some v → hitOpt s keys now i = some v)
    (hreach : ∀ i k, keys[i]? = some k → k ∈ keys → hitOpt s keys now i ≠ none →
      lookupFound st.found i ≠ none) (i : Nat) :
    lookupFound st.found i = hitOpt s keys now i := by
  cases hhit : hitOpt s keys now i with
  | none =>
    cases hl : lookupFound st.found i with
    | none => rfl
    | some v =>
      have h := hgood i v hl
      rw [hhit] at h
      cases h
  | some v =>
    have hne : hitOpt s keys now i ≠ none := by
      rw [hhit]
      simp
    obtain ⟨k, e, hk, -, -⟩ := hitOpt_ne_none hne
    have hlt : i < keys.length := by
      by_contra hge
      rw [List.getElem?_eq_none (by omega)] at hk
      cases hk
    have hkm : k ∈ keys := by
      have hgi : keys[i]? = some keys[i] := List.getElem?_eq_getElem hlt
      rw [hgi] at hk
      rw [← Option.some.inj hk]
      exact List.getElem_mem hlt
    cases hl : lookupFound st.found i with
    | none => exact absurd hl (hreach i k hk hkm hne)
    | some w =>
      have h := hgood i w hl
      rw [hhit] at h
      exact h.symm

/-- C4: `batch_get_embeddings` partitions the positions: every position
below `texts.length` is in exactly one of `found` (dict lookup succeeds)
and `missing` (duplicate texts contribute one entry per position);
`missing` is sorted strictly ascending and contains only positions;
empty `texts` yields `({}, [])` and an untouched store. -/
theorem C4_batch_partition (texts : List Str) (model : Str) (now : Int)
    (s : Store) (hwf : s.WFKeys) (hwfb : s.WFBlobs) :
    ∃ found missing s2,
      batch_get_embeddings texts model now s = some (found, missing, s2) ∧
      (∀ i < texts.length,
        (lookupFound found i ≠ none ∧ i ∉ missing) ∨
        (lookupFound found i = none ∧ i ∈ missing)) ∧
      List.Sorted (· < ·) missing ∧
      (∀ i ∈ missing, i < texts.length) ∧
      (texts = [] → found = [] ∧ missing = [] ∧ s2 = s) := by
  by_cases hemp : texts = []
  · subst hemp
    refine ⟨[], [], s, rfl, ?_, List.sorted_nil, ?_, fun _ => ⟨rfl, rfl, rfl⟩⟩
    · intro i hi
      simp at hi
    · intro i hi
      cases hi
  · set keys := texts.map (fun t => _make_key t model) with hkeys
    obtain ⟨st', hrun, hgood', -, -, -, -, -⟩ :=
      processChunks_spec s keys now hwf hwfb (chunksOf MAX_VARS keys) ⟨[], []⟩
        (by intro i v h; simp [lookupFound] at h)
    refine ⟨st'.found,
      (List.range texts.length).filter
        (fun i => decide (lookupFound st'.found i = none)),
      (if st'.expired = [] then s
        else s.filter (fun e => decide (¬ e.key ∈ st'.expired))),
      ?_, ?_, ?_, ?_, fun h => absurd h hemp⟩
    · simp only [batch_get_embeddings, if_neg hemp, ← hkeys, hrun]
    · intro i hi
      cases h : lookupFound st'.found i with
      | none =>
        exact Or.inr ⟨rfl, List.mem_filter.mpr
          ⟨List.mem_range.mpr hi, by simp [h]⟩⟩
      | some v =>
        refine Or.inl ⟨by simp [h], ?_⟩
        intro hmem
        have h2 := (List.mem_filter.mp hmem).2
        simp [h] at h2
    · exact (List.pairwise_lt_range texts.length).filter _
    · intro i hi
      exact List.mem_range.mp (List.mem_filter.mp hi).1

theorem C4_witness :
    ∃ found missing s2,
      batch_get_embeddings [['A'], ['B'], ['A'], ['C']] ['m'] 0
        [⟨_make_key ['B'] ['m'], ['m'], ['B'], [1, 0, 0, 0], 0⟩] =
        some (found, missing, s2) ∧
      (∀ i < ([['A'], ['B'], ['A'], ['C']] : List Str).length,
        (lookupFound found i ≠ none ∧ i ∉ missing) ∨
        (lookupFound found i = none ∧ i ∈ missing)) ∧
      List.Sorted (· < ·) missing ∧
      (∀ i ∈ missing, i < ([['A'], ['B'], ['A'], ['C']] : List Str).length) ∧
      (([['A'], ['B'], ['A'], ['C']] : List Str) = [] →
        found = [] ∧ missing = [] ∧
        s2 = [⟨_make_key ['B'] ['m'], ['m'], ['B'], [1, 0, 0, 0], 0⟩]) :=
  C4_batch_partition [['A'], ['B'], ['A'], ['C']] ['m'] 0
    [⟨_make_key ['B'] ['m'], ['m'], ['B'], [1, 0, 0, 0], 0⟩]
    (by simp [Store.WFKeys]) (by unfold Store.WFBlobs; decide)

/-- C8: in `batch_get_embeddings`, a stored record past TTL whose key some
position shares is a miss for every position sharing its key (none of them
is in `found`, all are in `missing`), and is deleted exactly once per
distinct key: the `DELETE` uses a duplicate-free key set containing its
key, and the returned store is the original minus the records whose key is
in that set. -/
theorem C8_batch_expiry (texts : List Str) (model : Str) (now : Int)
    (s : Store) (hwf : s.WFKeys) (hwfb : s.WFBlobs) (e : Entry) (he : e ∈ s)
    (hexp : isExpired now e = true) (t : Str) (ht : t ∈ texts)
    (hkey : _make_key t model = e.key) :
    ∃ found missing s2,
      batch_get_embeddings texts model now s = some (found, missing, s2) ∧
      (∀ i, (texts.map (fun t => _make_key t model))[i]? = some e.key →
        lookupFound found i = none ∧ i ∈ missing) ∧
      (∃ exp : List Str, exp.Nodup ∧ e.key ∈ exp ∧
        s2 = s.filter (fun x => decide (¬ x.key ∈ exp))) := by
  have hemp : texts ≠ [] := fun h => by
    subst h
    cases ht
  set keys := texts.map (fun t => _make_key t model) with hkeys
  obtain ⟨st', hrun, hgood', -, -, -, hexpiff, hnodup⟩ :=
    processChunks_spec s keys now hwf hwfb (chunksOf MAX_VARS keys) ⟨[], []⟩
      (by intro i v h; simp [lookupFound] at h)
  have hflat : (chunksOf MAX_VARS keys).flatten = keys :=
    flatten_chunksOf MAX_VARS (by decide) keys
  have hrowe : rowOf s e.key = some e := rowOf_eq_some hwf he
  have hkmem : e.key ∈ keys := by
    rw [hkeys]
    exact hkey ▸ List.mem_map_of_mem _ ht
  have hkexp : e.key ∈ st'.expired := by
    rw [hexpiff e.key]
    refine Or.inr ⟨?_, e, hrowe, hexp⟩
    rw [hflat]
    exact hkmem
  have hexpne : ¬ st'.expired = [] := fun h => by
    rw [h] at hkexp
    cases hkexp
  refine ⟨st'.found,
    (List.range texts.length).filter
      (fun i => decide (lookupFound st'.found i = none)),
    (if st'.expired = [] then s
      else s.filter (fun x => decide (¬ x.key ∈ st'.expired))),
    ?_, ?_, ⟨st'.expired, hnodup List.nodup_nil, hkexp, ?_⟩⟩
  · simp only [batch_get_embeddings, if_neg hemp, ← hkeys, hrun]
  · intro i hik
    have hnone : lookupFound st'.found i = none := by
      cases h : lookupFound st'.found i with
      | none => rfl
      | some v =>
        have hg := hgood' i v h
        simp only [hitOpt, hik, hrowe, hexp, if_true] at hg
        cases hg
    refine ⟨hnone, ?_⟩
    have hilen : i < keys.length := by
      by_contra hge
      rw [List.getElem?_eq_none (by omega)] at hik
      cases hik
    refine List.mem_filter.mpr ⟨List.mem_range.mpr ?_, by simp [hnone]⟩
    rw [hkeys] at hilen
    simpa using hilen
  · rw [if_neg hexpne]

theorem C8_witness :
    ∃ found missing s2,
      batch_get_embeddings [['B']] ['m'] 2592001
        [⟨_make_key ['B'] ['m'], ['m'], ['B'], [1, 0, 0, 0], 0⟩] =
        some (found, missing, s2) ∧
      (∀ i, (([['B']] : List Str).map (fun t => _make_key t ['m']))[i]? =
          some (⟨_make_key ['B'] ['m'], ['m'], ['B'], [1, 0, 0, 0],
            (0 : Int)⟩ : Entry).key →
        lookupFound found i = none ∧ i ∈ missing) ∧
      (∃ exp : List Str, exp.Nodup ∧
        (⟨_make_key ['B'] ['m'], ['m'], ['B'], [1, 0, 0, 0],
          (0 : Int)⟩ : Entry).key ∈ exp ∧
        s2 = [⟨_make_key ['B'] ['m'], ['m'], ['B'], [1, 0, 0, 0], (0 : Int)⟩].filter
          (fun x => decide (¬ x.key ∈ exp))) :=
  C8_batch_expiry [['B']] ['m'] 2592001
    [⟨_make_key ['B'] ['m'], ['m'], ['B'], [1, 0, 0, 0], 0⟩]
    (by simp [Store.WFKeys]) (by unfold Store.WFBlobs; decide)
    ⟨_make_key ['B'] ['m'], ['m'], ['B'], [1, 0, 0, 0], 0⟩
    (by decide) (by decide) ['B'] (by decide) (by decide)

/-- C9: chunking the backend query (chunks of at most `MAX_VARS = 900`
keys) changes no result semantics: the chunked resolver and the resolver
issuing one unchunked query over all keys agree — the `found` dicts have
the same lookup at every position, the `missing` lists are identical, and
the stores after the call are identical. -/
theorem C9_chunking_equiv (texts : List Str) (model : Str) (now : Int)
    (s : Store) (hwf : s.WFKeys) (hwfb : s.WFBlobs) :
    ∃ found1 missing1 s21 found2 missing2 s22,
      batch_get_embeddings texts model now s = some (found1, missing1, s21) ∧
      batch_get_embeddings_unchunked texts model now s =
        some (found2, missing2, s22) ∧
      (∀ i, lookupFound found1 i = lookupFound found2 i) ∧
      missing1 = missing2 ∧ s21 = s22 := by
  by_cases hemp : texts = []
  · subst hemp
    exact ⟨[], [], s, [], [], s, rfl, rfl, fun i => rfl, rfl, rfl⟩
  · set keys := texts.map (fun t => _make_key t model) with hkeys
    obtain ⟨st1, hrun1, hgood1, -, -, hreach1, hexpiff1, -⟩ :=
      processChunks_spec s keys now hwf hwfb (chunksOf MAX_VARS keys) ⟨[], []⟩
        (by intro i v h; simp [lookupFound] at h)
    obtain ⟨st2, hrun2, hgood2, -, -, hreach2, hexpiff2, -⟩ :=
      processChunks_spec s keys now hwf hwfb [keys] ⟨[], []⟩
        (by intro i v h; simp [lookupFound] at h)
    have hflat1 : (chunksOf MAX_VARS keys).flatten = keys :=
      flatten_chunksOf MAX_VARS (by decide) keys
    have hflat2 : ([keys] : List (List Str)).flatten = keys := by simp
    have hlookeq : ∀ i, lookupFound st1.found i = lookupFound st2.found i := by
      intro i
      rw [lookup_eq_hitOpt s keys now st1 hgood1
          (fun i k hk hkm hne => hreach1 i k hk (by rw [hflat1]; exact hkm) hne) i,
        lookup_eq_hitOpt s keys now st2 hgood2
          (fun i k hk hkm hne => hreach2 i k hk (by rw [hflat2]; exact hkm) hne) i]
    have hexpeq : ∀ k, k ∈ st1.expired ↔ k ∈ st2.expired := by
      intro k
      rw [hexpiff1 k, hexpiff2 k, hflat1, hflat2]
    have hnileq : (st1.expired = []) ↔ (st2.expired = []) := by
      rw [List.eq_nil_iff_forall_not_mem, List.eq_nil_iff_forall_not_mem]
      exact ⟨fun h x hx => h x ((hexpeq x).mpr hx),
        fun h x hx => h x ((hexpeq x).mp hx)⟩
    refine ⟨st1.found,
      (List.range texts.length).filter
        (fun i => decide (lookupFound st1.found i = none)),
      (if st1.expired = [] then s
        else s.filter (fun x => decide (¬ x.key ∈ st1.expired))),
      st2.found,
      (List.range texts.length).filter
        (fun i => decide (lookupFound st2.found i = none)),
      (if st2.expired = [] then s
        else s.filter (fun x => decide (¬ x.key ∈ st2.expired))),
      ?_, ?_, hlookeq, ?_, ?_⟩
    · simp only [batch_get_embeddings, if_neg hemp, ← hkeys, hrun1]
    · simp only [batch_get_embeddings_unchunked, if_neg hemp, ← hkeys, hrun2]
    · apply List.filter_congr
      intro i _
      rw [hlookeq i]
    · by_cases hnil : st1.expired = []
      · rw [if_pos hnil, if_pos (hnileq.mp hnil)]
      · rw [if_neg hnil, if_neg (fun h => hnil (hnileq.mpr h))]
        apply List.filter_congr
        intro x _
        exact decide_eq_decide.mpr (not_congr (hexpeq x.key))

theorem C9_witness :
    ∃ found1 missing1 s21 found2 missing2 s22,
      batch_get_embeddings [['A'], ['B']] ['m'] 0
        [⟨_make_key ['B'] ['m'], ['m'], ['B'], [1, 0, 0, 0], 0⟩] =
        some (found1, missing1, s21) ∧
      batch_get_embeddings_unchunked [['A'], ['B']] ['m'] 0
        [⟨_make_key ['B'] ['m'], ['m'], ['B'], [1, 0, 0, 0], 0⟩] =
        some (found2, missing2, s22) ∧
      (∀ i, lookupFound found1 i = lookupFound found2 i) ∧
      missing1 = missing2 ∧ s21 = s22 :=
  C9_chunking_equiv [['A'], ['B']] ['m'] 0
    [⟨_make_key ['B'] ['m'], ['m'], ['B'], [1, 0, 0, 0], 0⟩]
    (by simp [Store.WFKeys]) (by unfold Store.WFBlobs; decide)
